import Mathlib

/-!
Verification of the pyauto capture/analysis engine core.

The definitions below are a shallow embedding of the Rust sources:
  * `src/src-tauri/src/engine/capture.rs` — `Region`, `crop_buffer`
  * `src/src-tauri/src/engine/mod.rs`     — `preprocess_image`, the rule-matching
    loop inside `RustBot::start` (attribute gate, keyword gate, price gate),
    and `parse_key`.

Machine integers are modelled as `Nat` with explicit `% 2^32` where the Rust
code performs `u32` arithmetic (release-mode wrapping semantics); byte buffers
are `List Nat` whose entries are below 256; `f32` arithmetic on the small
decimal constants of the preprocessor is modelled by exact scaled-integer /
rational arithmetic with truncation where the code casts to `u8`.
-/

set_option maxRecDepth 8000

/- `Rat.mul`, `Rat.add`, `Rat.sub` and `Rat.inv` are shipped `@[irreducible]`,
which blocks `decide` on concrete rational computations; restore the default
transparency locally so the kernel-checked evaluations below can run. -/
set_option allowUnsafeReducibility true
attribute [local semireducible] Rat.mul Rat.add Rat.sub Rat.inv Rat.ofScientific

namespace PyAuto

/-! ### Region and crop_buffer (capture.rs, lines 11-49) -/

/-- `Region` from capture.rs: axis-aligned rectangle, `u32` fields
(modelled as `Nat`; callers that need the `u32` range state it explicitly). -/
structure Region where
  x : Nat
  y : Nat
  width : Nat
  height : Nat
deriving DecidableEq

/-- Outcome of running `crop_buffer`: Rust returns `Option<Vec<u8>>` but can
also panic on an out-of-range slice, so the embedding distinguishes all three. -/
inductive CropResult where
  | panicked
  | rejected
  | ok (buf : List Nat)
deriving DecidableEq

/-- `&src[idx..idx+len]`: Rust slicing panics (here: `none`) when the end of
the range exceeds the buffer length. -/
def sliceRow (src : List Nat) (idx len : Nat) : Option (List Nat) :=
  if idx + len ≤ src.length then some ((src.drop idx).take len) else none

/-- The `for i in 0..region.height` copy loop of `crop_buffer`: row `i` is the
slice starting at `start + i * rb` of length `crb`; a slice panic aborts. -/
def cropLoop (src : List Nat) (start rb crb : Nat) : Nat → Nat → Option (List Nat)
  | _, 0 => some []
  | i, cnt + 1 =>
    match sliceRow src (start + i * rb) crb with
    | none => none
    | some row =>
      match cropLoop src start rb crb (i + 1) cnt with
      | none => none
      | some rest => some (row ++ rest)

/-- `crop_buffer` from capture.rs.  All arithmetic on `u32` values
(`region.x + region.width`, `(src_w * bpp)`, `(region.y * src_w + region.x) * bpp`)
is performed modulo `2^32`, mirroring release-mode wrapping; the per-row
`usize` arithmetic (`start + i*row_bytes`) is exact 64-bit and cannot wrap for
`u32` inputs, so it is left exact. -/
def crop_buffer (src : List Nat) (src_w src_h : Nat) (region : Region) : CropResult :=
  if (region.x + region.width) % 2 ^ 32 > src_w ∨
      (region.y + region.height) % 2 ^ 32 > src_h then
    .rejected
  else
    match cropLoop src (((region.y * src_w + region.x) * 4) % 2 ^ 32)
        ((src_w * 4) % 2 ^ 32) ((region.width * 4) % 2 ^ 32) 0 region.height with
    | none => .panicked
    | some dest => .ok dest

/-! ### Preprocessor (mod.rs, `preprocess_image`, lines 681-796) -/

/-- Luminance `(0.299*r + 0.587*g + 0.114*b) as u8` of one BGRA chunk.
The decimal constants are scaled by 1000 and the `as u8` cast is floor with
saturation at 255 (for byte inputs the value never exceeds 255). -/
def gray (b g r : Nat) : Nat := min ((299 * r + 587 * g + 114 * b) / 1000) 255

/-- The luminances of the successive complete 4-byte chunks of the buffer
(`data.chunks_exact(4)` in pass 1); a trailing fragment shorter than 4 bytes
yields no chunk. -/
def grayList : List Nat → List Nat
  | b :: g :: r :: _ :: rest => gray b g r :: grayList rest
  | _ => []

/-- Pass 2 of `preprocess_image`: write `f` of the chunk's luminance into the
three colour channels of each complete 4-byte chunk, leave alpha and any
trailing fragment untouched (`chunks_exact_mut(4)`). -/
def mapPixels (f : Nat → Nat) : List Nat → List Nat
  | b :: g :: r :: a :: rest =>
    f (gray b g r) :: f (gray b g r) :: f (gray b g r) :: a :: mapPixels f rest
  | l => l

/-- Running minimum of pass 1 (`min_val`, initialised to 255). -/
def minOf (gs : List Nat) : Nat := gs.foldl (fun m g => if g < m then g else m) 255

/-- Running maximum of pass 1 (`max_val`, initialised to 0). -/
def maxOf (gs : List Nat) : Nat := gs.foldl (fun m g => if g > m then g else m) 0

/-- One step of the mode scan over the histogram: keep the running pair
`(mode_val, mode_count)` unless bucket `i` is strictly more frequent. -/
def modeStep (gs : List Nat) (p : Nat × Nat) (i : Nat) : Nat × Nat :=
  if gs.count i > p.2 then (i, gs.count i) else p

/-- Histogram mode: scan buckets `0..256` keeping the first strictly largest
count (ties keep the lower bucket, as in the source's `count > mode_count`). -/
def modeOf (gs : List Nat) : Nat := ((List.range 256).foldl (modeStep gs) (0, 0)).1

/-- `threshold_white = mode_val.saturating_add(20)`. -/
def thrOf (gs : List Nat) : Nat := min (modeOf gs + 20) 255

/-- `bright_pixel_count`: the histogram mass of buckets `thr..=255`, i.e. the
number of pixels with luminance at least `thr` (all luminances are ≤ 255). -/
def brightCount (gs : List Nat) (thr : Nat) : Nat := gs.countP (fun g => decide (thr ≤ g))

/-- The strict-binarization branch condition `use_high_threshold`:
light background, near-white highlights, and more than `total/200` bright
pixels (`total_pixels = data.len() / 4`, integer division). -/
def useHigh (data : List Nat) : Bool :=
  let gs := grayList data
  decide (100 < modeOf gs) && decide (240 < maxOf gs) &&
    decide (data.length / 4 / 200 < brightCount gs (thrOf gs))

/-- Strict binarization output value for a pixel of luminance `g`. -/
def strictVal (thr g : Nat) : Nat := if thr ≤ g then 255 else 0

/-- Auto-levels with polarity correction (the `else` branch of pass 2):
invert when `mode_val < 100`, normalise against the (possibly inverted)
min/max range when the range exceeds 10, otherwise output mid-gray; the final
`as u8` cast is a floor on the clamped value. -/
def autoLevelVal (modeV minV maxV g : Nat) : Nat :=
  let invert := modeV < 100
  let valF : ℚ := if invert then 255 - (g : ℚ) else (g : ℚ)
  let vMin : ℚ := if invert then 255 - (maxV : ℚ) else (minV : ℚ)
  let vMax : ℚ := if invert then 255 - (minV : ℚ) else (maxV : ℚ)
  let rng : ℚ := vMax - vMin
  let normalized : ℚ := if rng > 10 then (valF - vMin) / rng else 1 / 2
  let clamped : ℚ := min (max normalized 0) 1
  (clamped * 255).floor.toNat

/-- `preprocess_image` from mod.rs: pass 1 computes the luminance statistics,
the heuristic picks a strategy, pass 2 rewrites every complete BGRA chunk. -/
def preprocess (data : List Nat) : List Nat :=
  let gs := grayList data
  if useHigh data then mapPixels (strictVal (thrOf gs)) data
  else mapPixels (autoLevelVal (modeOf gs) (minOf gs) (maxOf gs)) data

/-! ### Rule matching (mod.rs, `RustBot::start`, lines 205-467) -/

/-- `OcrData` from ocr.rs: one recognized token.  The `f32` coordinates are
modelled as rationals (the OCR service produces ordinary finite values). -/
structure OcrData where
  text : String
  x : ℚ
  y : ℚ
  w : ℚ
  h : ℚ

/-- `Rule` from mod.rs (configuration, read-only). -/
structure Rule where
  id : String
  trigger_text : List String
  max_value : Option ℚ
  min_value : Option ℚ
  target_attribute : Option String
  cooldown : ℚ

/-- The data of one fired action: rule id, matched token text, attribute text
(topmost token, original casing, empty when none) and matched price. -/
structure ActionEvent where
  rule_id : String
  name : String
  attr : String
  price : ℚ
deriving DecidableEq

/-- `findings.iter().min_by(|a, b| a.y.partial_cmp(&b.y).unwrap_or(Equal))`:
the first token with minimal `y` (Rust `min_by` keeps the earlier element on
ties, and the fold only replaces the accumulator on strict decrease). -/
def topmost (findings : List OcrData) : Option OcrData :=
  findings.foldl
    (fun acc item =>
      match acc with
      | none => some item
      | some a => if item.y < a.y then some item else some a)
    none

/-- Rust `str::to_lowercase()` as the character list of the result: Unicode
per-character lowercasing (for the ASCII configuration data handled here the
Rust special cases never apply), i.e. `String.toLower`'s character data. -/
def lowerData (s : String) : List Char := s.data.map Char.toLower

/-- Inner recursion of `lev` on the second string, with `levXs` the distance
function for the tail `xs` of the first string: computes the distance from
`x :: xs` (of length `xsLen + 1`). -/
def levGo (levXs : List Char → Nat) (x : Char) (xsLen : Nat) : List Char → Nat
  | [] => xsLen + 1
  | y :: ys =>
    if x = y then levXs ys
    else 1 + min (levXs ys) (min (levGo levXs x xsLen ys) (levXs (y :: ys)))

/-- Levenshtein edit distance on character lists (insert/delete/substitute at
unit cost), as computed by the `strsim` crate.  Satisfies the standard
recurrence: `lev [] ys = ys.length`, `lev (x::xs) [] = xs.length + 1`, and
`lev (x::xs) (y::ys)` is `lev xs ys` when `x = y`, otherwise
`1 + min (lev xs ys) (min (lev (x::xs) ys) (lev xs (y::ys)))`. -/
def lev : List Char → List Char → Nat
  | [], ys => ys.length
  | x :: xs, ys => levGo (lev xs) x xs.length ys

/-- `strsim::normalized_levenshtein`: 1 for two empty strings, otherwise
`1 - distance / max(len_a, len_b)`; the `f64` arithmetic is modelled exactly
over `ℚ`. -/
def normalized_levenshtein (a b : List Char) : ℚ :=
  if a.isEmpty && b.isEmpty then 1
  else 1 - (lev a b : ℚ) / ((max a.length b.length : Nat) : ℚ)

/-- Rust `text.split(|c: char| !c.is_alphanumeric())`: the (possibly empty)
fragments between non-alphanumeric separators, in order.  The inputs of
interest are ASCII, where Lean's `Char.isAlphanum` agrees with Rust's
`char::is_alphanumeric`. -/
def splitWords : List Char → List (List Char)
  | [] => [[]]
  | c :: rest =>
    if c.isAlphanum then
      match splitWords rest with
      | w :: ws => (c :: w) :: ws
      | [] => [[c]]
    else
      [] :: splitWords rest

/-- Does `hay` start with `needle`? -/
def startsWith : List Char → List Char → Bool
  | [], _ => true
  | _ :: _, [] => false
  | n :: ns, h :: hs => n = h && startsWith ns hs

/-- Rust `str::contains(&needle)`: substring containment. -/
def hasSub (needle : List Char) : List Char → Bool
  | [] => needle.isEmpty
  | c :: rest => startsWith needle (c :: rest) || hasSub needle rest

/-- The keyword gate of the matching loop (`rule.trigger_text.iter().any`):
a trigger containing a space is a phrase matched by substring containment;
otherwise the token's (already lower-cased) text is split on non-alphanumeric
characters and some word must equal the lower-cased trigger or be closer than
0.85 normalized Levenshtein similarity. -/
def keyword_match (triggers : List String) (textLower : List Char) : Bool :=
  triggers.any fun t =>
    let keyword := lowerData t
    if keyword.contains ' ' then
      hasSub keyword textLower
    else
      (splitWords textLower).any fun word =>
        decide (word = keyword) || decide (normalized_levenshtein word keyword > 0.85)

/-- One character of a `[\d,\.]+` regex run. -/
def isRunChar (c : Char) : Bool := c.isDigit || c = ',' || c = '.'

/-- Scanner for `numRuns`: `cur` holds the characters of the current run in
reverse; a finished non-empty run is emitted when a non-run character or the
end of the text is reached. -/
def numRunsGo : List Char → List Char → List (List Char)
  | cur, [] => if cur.isEmpty then [] else [cur.reverse]
  | cur, c :: rest =>
    if isRunChar c then numRunsGo (c :: cur) rest
    else if cur.isEmpty then numRunsGo [] rest
    else cur.reverse :: numRunsGo [] rest

/-- `Regex::new(r"[\d,\.]+").find_iter(text)`: the maximal non-empty runs of
digit/comma/period characters, left to right. -/
def numRuns (l : List Char) : List (List Char) := numRunsGo [] l

/-- `num_str.replace(',', "")`. -/
def stripCommas (l : List Char) : List Char := l.filter (fun c => c != ',')

/-- Value of a digit character. -/
def digitVal (c : Char) : Nat := c.toNat - 48

/-- Natural number denoted by a digit list (empty list denotes 0). -/
def digitsToNat (l : List Char) : Nat := l.foldl (fun n c => 10 * n + digitVal c) 0

/-- `num_str.parse::<f32>()` restricted to the strings reachable here (runs of
digits and periods, commas already stripped): accepted iff there is at most
one period and at least one digit; the value is the usual decimal value,
modelled exactly over `ℚ`. -/
def parseDecimal (l : List Char) : Option ℚ :=
  if l.isEmpty then none
  else if l.any (fun c => !(c.isDigit || c = '.')) then none
  else
    let intPart := l.takeWhile (fun c => c != '.')
    match l.dropWhile (fun c => c != '.') with
    | [] => some (digitsToNat intPart : ℚ)
    | _ :: frac =>
      if frac.contains '.' then none
      else if intPart.isEmpty && frac.isEmpty then none
      else some ((digitsToNat intPart : ℚ) + (digitsToNat frac : ℚ) / 10 ^ frac.length)

/-- The price gate (`price_satisfied` / `matched_price`): with no declared
bound it passes with price 0; otherwise the first parsed numeric run whose
value lies within the declared bounds is the matched price, and the absence of
such a run rejects the pair (`none`). -/
def priceGate (rawText : List Char) (minV maxV : Option ℚ) : Option ℚ :=
  if minV.isNone && maxV.isNone then some 0
  else
    ((numRuns rawText).filterMap (fun run => parseDecimal (stripCommas run))).find?
      (fun v => minV.all (fun m => decide (m ≤ v)) && maxV.all (fun m => decide (v ≤ m)))

/-- The three gates of the matching loop applied to one (rule, token) pair,
given the lower-cased text of the topmost token: `none` when any gate rejects
(`continue` in the source), `some price` when the pair fires. -/
def pairPrice (rule : Rule) (attrTextLower : Option (List Char)) (item : OcrData) : Option ℚ :=
  let text := lowerData item.text
  let attrOk :=
    match rule.target_attribute with
    | some req =>
      match attrTextLower with
      | some curr => hasSub (lowerData req) curr
      | none => false
    | none => true
  if attrOk then
    if keyword_match rule.trigger_text text then
      priceGate item.text.data rule.min_value rule.max_value
    else none
  else none

/-- `attribute_text`: the lower-cased text of the topmost token, when any. -/
def attrLowerOf (findings : List OcrData) : Option (List Char) :=
  (topmost findings).map (fun i => lowerData i.text)

/-- The `ActionEvent` data assembled on a fire: the rule's id, the matched
token's text, the topmost token's original text (`gas_attribute`, empty when
no token exists) and the matched price. -/
def eventOf (rule : Rule) (findings : List OcrData) (item : OcrData) (price : ℚ) :
    ActionEvent :=
  { rule_id := rule.id, name := item.text,
    attr := ((topmost findings).map (fun i => i.text)).getD "", price := price }

/-- The full matching step of one analysis pass (`for rule in rules { for item
in findings { ... } }`): every (rule, token) pair that passes all gates fires
one action, rules in configuration order, tokens in list order; the source
contains no break, so the iteration continues after a fire. -/
def firedEvents (rules : List Rule) (findings : List OcrData) : List ActionEvent :=
  rules.flatMap fun rule =>
    findings.filterMap fun item =>
      (pairPrice rule (attrLowerOf findings) item).map (eventOf rule findings item)

/-! ### parse_key (mod.rs, lines 623-679) -/

/-- The match arms of `parse_key`, in source order, as (lower-cased name,
virtual-key code) pairs; letters map to `VK_A..VK_Z` (65..90), digits to
`VK_0..VK_9` (48..57), `f1..f12` to 112..123, and the four named keys to
`VK_SPACE`/`VK_RETURN`/`VK_TAB`/`VK_ESCAPE`. -/
def keyTable : List (String × Nat) :=
  [("a", 65), ("b", 66), ("c", 67), ("d", 68), ("e", 69), ("f", 70), ("g", 71),
   ("h", 72), ("i", 73), ("j", 74), ("k", 75), ("l", 76), ("m", 77), ("n", 78),
   ("o", 79), ("p", 80), ("q", 81), ("r", 82), ("s", 83), ("t", 84), ("u", 85),
   ("v", 86), ("w", 87), ("x", 88), ("y", 89), ("z", 90),
   ("0", 48), ("1", 49), ("2", 50), ("3", 51), ("4", 52), ("5", 53), ("6", 54),
   ("7", 55), ("8", 56), ("9", 57),
   ("f1", 112), ("f2", 113), ("f3", 114), ("f4", 115), ("f5", 116), ("f6", 117),
   ("f7", 118), ("f8", 119), ("f9", 120), ("f10", 121), ("f11", 122), ("f12", 123),
   ("space", 32), ("enter", 13), ("tab", 9), ("esc", 27)]

/-- `VK_E`, the fallback of `parse_key`'s wildcard arm. -/
def VK_E : Nat := 69

/-- `parse_key` from mod.rs: match on the lower-cased key name, defaulting to
`VK_E` on the wildcard arm. -/
def parse_key (k : String) : Nat := ((keyTable.lookup (String.mk (lowerData k))).getD VK_E)

/-! ### Concrete inputs used by the claim theorems below -/

/-- The 8 GiB two-row buffer on which the `u32` offset arithmetic of
`crop_buffer` wraps: row 0 holds bytes `1`, row 1 holds bytes `2`. -/
def bigTwoRows : List Nat := List.replicate (2 ^ 32) 1 ++ List.replicate (2 ^ 32) 2

/-- A 5-pixel buffer with luminances [102, 102, 241, 242, 243]: the strict
branch fires (mode 102, max 243, 3 bright pixels) and the binarized output has
a 3-to-2 white majority. -/
def whiteMajorityBuf : List Nat :=
  [0, 174, 0, 9] ++ [0, 174, 0, 9] ++ [133, 255, 255, 9] ++ [142, 255, 255, 9] ++
    [151, 255, 255, 9]

/-- A 4-pixel buffer with luminances [149, 149, 149, 248]: the strict branch
fires (mode 149, max 248, 1 bright pixel of 4), but the binarized output is
black-majority. -/
def blackMajorityBuf : List Nat :=
  [0, 254, 0, 7] ++ [0, 254, 0, 7] ++ [0, 254, 0, 7] ++ [194, 255, 255, 7]

/-- A 4-pixel buffer with luminances [250, 250, 250, 255]: mode 250 > 235, so
the saturating threshold is 255 while the claim's unsaturated bound is 270. -/
def nearWhiteBuf : List Nat :=
  [212, 255, 255, 0] ++ [212, 255, 255, 0] ++ [212, 255, 255, 0] ++ [255, 255, 255, 0]

/-- A sample rule and token list on which two (rule, token) pairs pass. -/
def goldRule : Rule :=
  { id := "r1", trigger_text := ["gold"], max_value := none, min_value := none,
    target_attribute := none, cooldown := 0 }

def goldTokens : List OcrData :=
  [{ text := "Gold Ring", x := 0, y := 1, w := 1, h := 1 },
   { text := "Gold Axe", x := 0, y := 2, w := 1, h := 1 }]

/-! ### Lemmas about the crop loop -/

/-- When every row's slice stays inside the buffer, the crop loop succeeds and
produces the concatenation of the rows, byte-indexed back into the source. -/
theorem cropLoop_spec (src : List Nat) (start rb crb : Nat) :
    ∀ (cnt i : Nat), (∀ k, k < cnt → start + (i + k) * rb + crb ≤ src.length) →
      ∃ b, cropLoop src start rb crb i cnt = some b ∧ b.length = cnt * crb ∧
        ∀ j c, j < cnt → c < crb → b[j * crb + c]? = src[start + (i + j) * rb + c]? := by
  intro cnt
  induction cnt with
  | zero =>
    intro i _
    exact ⟨[], rfl, (Nat.zero_mul crb).symm, fun j c hj _ => absurd hj (Nat.not_lt_zero j)⟩
  | succ n ih =>
    intro i h
    have h0 : start + i * rb + crb ≤ src.length := by
      have := h 0 (Nat.succ_pos n)
      simpa using this
    have hrow : sliceRow src (start + i * rb) crb =
        some ((src.drop (start + i * rb)).take crb) := by
      simp [sliceRow, h0]
    have hlenrow : ((src.drop (start + i * rb)).take crb).length = crb := by
      simp only [List.length_take, List.length_drop]
      omega
    obtain ⟨rest, hrest, hrestlen, hresti⟩ := ih (i + 1) (fun k hk => by
      have hk' := h (k + 1) (Nat.succ_lt_succ hk)
      have e : i + (k + 1) = i + 1 + k := by omega
      rw [e] at hk'
      exact hk')
    refine ⟨(src.drop (start + i * rb)).take crb ++ rest, ?_, ?_, ?_⟩
    · simp [cropLoop, hrow, hrest]
    · simp [hlenrow, hrestlen]
      ring
    · intro j c hj hc
      cases j with
      | zero =>
        rw [Nat.zero_mul, Nat.zero_add, List.getElem?_append,
          if_pos (by omega : c < ((src.drop (start + i * rb)).take crb).length),
          List.getElem?_take, if_pos hc, List.getElem?_drop]
        norm_num
      | succ j' =>
        have hge : ((src.drop (start + i * rb)).take crb).length ≤ (j' + 1) * crb + c := by
          rw [hlenrow]
          calc crb ≤ (j' + 1) * crb := by
                have := Nat.le_mul_of_pos_left crb (Nat.succ_pos j')
                simpa using this
          _ ≤ (j' + 1) * crb + c := Nat.le_add_right _ _
        rw [List.getElem?_append_right hge, hlenrow]
        have e1 : (j' + 1) * crb + c - crb = j' * crb + c := by
          have : (j' + 1) * crb = j' * crb + crb := by ring
          omega
        rw [e1, hresti j' c (Nat.lt_of_succ_lt_succ hj) hc]
        congr 1
        ring

/-- C4 (amended): with the in-bounds hypotheses and a total buffer size that
fits in `u32`, `crop_buffer` returns a complete `width*height*4`-byte buffer
whose pixel `(i, j)` is the source pixel `(x+i, y+j)`. -/
theorem crop_row_range (src_w src_h : Nat) (r : Region)
    (hx : r.x + r.width ≤ src_w) (hy : r.y + r.height ≤ src_h) :
    ∀ k, k < r.height →
      (r.y * src_w + r.x) * 4 + (0 + k) * (src_w * 4) + r.width * 4 ≤ src_w * src_h * 4 := by
  intro k hk
  have h1 : (r.y * src_w + r.x) * 4 + (0 + k) * (src_w * 4) + r.width * 4 =
      ((r.y + k) * src_w + (r.x + r.width)) * 4 := by ring
  rw [h1]
  have h2 : (r.y + k) * src_w + (r.x + r.width) ≤ (r.y + k) * src_w + src_w := by
    exact Nat.add_le_add_left hx _
  have h3 : (r.y + k) * src_w + src_w = (r.y + k + 1) * src_w := by ring
  have h4 : r.y + k + 1 ≤ src_h := by omega
  have h5 : (r.y + k + 1) * src_w ≤ src_h * src_w := Nat.mul_le_mul_right _ h4
  have h6 : (r.y + k) * src_w + (r.x + r.width) ≤ src_h * src_w := by omega
  calc ((r.y + k) * src_w + (r.x + r.width)) * 4 ≤ (src_h * src_w) * 4 :=
        Nat.mul_le_mul_right _ h6
  _ = src_w * src_h * 4 := by ring

/-- C4 (amended): for every region R and source buffer S of `u32` dimensions
src_w × src_h with length src_w·src_h·4, if R.x+R.width ≤ src_w,
R.y+R.height ≤ src_h and additionally the buffer size src_w·src_h·4 fits in
`u32` (so the `u32` offset arithmetic of the crop cannot wrap), then
crop_buffer returns a buffer of exactly R.width·R.height·4 bytes, row-major,
whose pixel at local (i, j) equals S's pixel at (R.x+i, R.y+j), byte for
byte, with no scaling or color conversion. -/
theorem C4_crop_in_bounds_correct (src : List Nat) (src_w src_h : Nat) (r : Region)
    (hw32 : src_w < 2 ^ 32) (hh32 : src_h < 2 ^ 32)
    (hlen : src.length = src_w * src_h * 4)
    (hx : r.x + r.width ≤ src_w) (hy : r.y + r.height ≤ src_h)
    (hsz : src_w * src_h * 4 < 2 ^ 32) :
    ∃ dest, crop_buffer src src_w src_h r = .ok dest ∧
      dest.length = r.width * r.height * 4 ∧
      ∀ i j c, i < r.width → j < r.height → c < 4 →
        dest[(j * r.width + i) * 4 + c]? = src[((r.y + j) * src_w + (r.x + i)) * 4 + c]? := by
  have hxmod : (r.x + r.width) % 2 ^ 32 = r.x + r.width := Nat.mod_eq_of_lt (by omega)
  have hymod : (r.y + r.height) % 2 ^ 32 = r.y + r.height := Nat.mod_eq_of_lt (by omega)
  have hcond : ¬((r.x + r.width) % 2 ^ 32 > src_w ∨ (r.y + r.height) % 2 ^ 32 > src_h) := by
    rw [hxmod, hymod]
    omega
  rw [crop_buffer, if_neg hcond]
  by_cases hh : r.height = 0
  · refine ⟨[], ?_, by simp [hh], fun i j c _ hj _ => by omega⟩
    rw [hh]
    rfl
  · have hh1 : 1 ≤ src_h := by omega
    have hwb : src_w * 4 ≤ src_w * src_h * 4 := by
      calc src_w * 4 = src_w * 1 * 4 := by ring
      _ ≤ src_w * src_h * 4 := Nat.mul_le_mul_right 4 (Nat.mul_le_mul_left src_w hh1)
    have hrbmod : (src_w * 4) % 2 ^ 32 = src_w * 4 := Nat.mod_eq_of_lt (by omega)
    have hcrbmod : (r.width * 4) % 2 ^ 32 = r.width * 4 := by
      have : r.width * 4 ≤ src_w * 4 := Nat.mul_le_mul_right 4 (by omega)
      exact Nat.mod_eq_of_lt (by omega)
    have hrange := crop_row_range src_w src_h r hx hy
    have hstartb : (r.y * src_w + r.x) * 4 ≤ src_w * src_h * 4 := by
      have := hrange 0 (by omega)
      omega
    have hstartmod : ((r.y * src_w + r.x) * 4) % 2 ^ 32 = (r.y * src_w + r.x) * 4 :=
      Nat.mod_eq_of_lt (by omega)
    rw [hstartmod, hrbmod, hcrbmod]
    obtain ⟨b, hb, hblen, hbidx⟩ :=
      cropLoop_spec src ((r.y * src_w + r.x) * 4) (src_w * 4) (r.width * 4) r.height 0
        (fun k hk => by rw [hlen]; exact hrange k hk)
    refine ⟨b, by rw [hb], by rw [hblen]; ring, ?_⟩
    intro i j c hi hj hc
    have e : (j * r.width + i) * 4 + c = j * (r.width * 4) + (i * 4 + c) := by ring
    rw [e, hbidx j (i * 4 + c) hj (by omega)]
    congr 1
    ring

/-- C4 witness: a concrete in-bounds crop (right pixel of a 2×1 frame). -/
theorem C4_witness :
    ∃ dest, crop_buffer [10, 11, 12, 13, 20, 21, 22, 23] 2 1 ⟨1, 0, 1, 1⟩ = .ok dest ∧
      dest.length = 1 * 1 * 4 ∧
      ∀ i j c, i < 1 → j < 1 → c < 4 →
        dest[(j * 1 + i) * 4 + c]? =
          [10, 11, 12, 13, 20, 21, 22, 23][((0 + j) * 2 + (1 + i)) * 4 + c]? :=
  C4_crop_in_bounds_correct [10, 11, 12, 13, 20, 21, 22, 23] 2 1 ⟨1, 0, 1, 1⟩
    (by norm_num) (by norm_num) (by norm_num) (by norm_num) (by norm_num) (by norm_num)

/-- C4 counterexample: for src_w = 2^30, src_h = 2 (buffer length
src_w·src_h·4 = 2^33) and the in-bounds region x=0, y=1, w=1, h=1, the `u32`
computation `(region.y * src_w + region.x) * 4` wraps to 0, so `crop_buffer`
returns the pixel of row 0 (bytes 1) although the source pixel at (0, 1) has
bytes 2: the claimed pixel equality fails. -/
theorem C4_counterexample_offset_wrap :
    bigTwoRows.length = 2 ^ 30 * 2 * 4 ∧
    (0 : Nat) + 1 ≤ 2 ^ 30 ∧ (1 : Nat) + 1 ≤ 2 ∧
    crop_buffer bigTwoRows (2 ^ 30) 2 ⟨0, 1, 1, 1⟩ = .ok [1, 1, 1, 1] ∧
    (∀ c, c < 4 → bigTwoRows[((1 + 0) * 2 ^ 30 + (0 + 0)) * 4 + c]? = some 2) ∧
    (1 : Nat) ≠ 2 := by
  have hlen : bigTwoRows.length = 2 ^ 30 * 2 * 4 := by
    rw [bigTwoRows, List.length_append, List.length_replicate, List.length_replicate]
    norm_num
  refine ⟨hlen, by norm_num, by norm_num, ?_, ?_, by norm_num⟩
  · have hrow : sliceRow bigTwoRows (0 + 0 * 0) 4 = some [1, 1, 1, 1] := by
      rw [sliceRow, if_pos (by rw [hlen]; norm_num)]
      have e0 : (0 : Nat) + 0 * 0 = 0 := by norm_num
      rw [e0, List.drop_zero, bigTwoRows, List.take_append_eq_append_take,
        List.take_replicate, List.length_replicate]
      have hmin : (4 : Nat) ⊓ 2 ^ 32 = 4 := by norm_num
      have hsub : (4 : Nat) - 2 ^ 32 = 0 := by norm_num
      rw [hmin, hsub, List.take_zero, List.append_nil]
      rfl
    have hloop : cropLoop bigTwoRows 0 0 4 0 1 = some [1, 1, 1, 1] := by
      rw [cropLoop, hrow]
      rfl
    rw [crop_buffer, if_neg (by norm_num)]
    have h1 : ((1 * 2 ^ 30 + 0) * 4) % 2 ^ 32 = 0 := by norm_num
    have h2 : ((2 ^ 30 : Nat) * 4) % 2 ^ 32 = 0 := by norm_num
    have h3 : ((1 : Nat) * 4) % 2 ^ 32 = 4 := by norm_num
    rw [h1, h2, h3, hloop]
  · intro c hc
    have hidx : ((1 + 0) * 2 ^ 30 + (0 + 0)) * 4 + c = 2 ^ 32 + c := by norm_num
    have hge : (List.replicate (2 ^ 32) (1 : Nat)).length ≤ 2 ^ 32 + c := by
      rw [List.length_replicate]
      omega
    rw [hidx, bigTwoRows, List.getElem?_append_right hge, List.length_replicate]
    have hsub : 2 ^ 32 + c - 2 ^ 32 = c := by omega
    rw [hsub, List.getElem?_replicate, if_pos (by omega)]

/-- C5 (amended): for a region whose sums R.x+R.width and R.y+R.height do not
overflow `u32`, if either sum exceeds the corresponding source dimension then
crop_buffer rejects the crop (returns "no result"), never a partial buffer
and never an error object. -/
theorem C5_crop_out_of_bounds_rejected (src : List Nat) (src_w src_h : Nat) (r : Region)
    (hx32 : r.x + r.width < 2 ^ 32) (hy32 : r.y + r.height < 2 ^ 32)
    (hout : r.x + r.width > src_w ∨ r.y + r.height > src_h) :
    crop_buffer src src_w src_h r = .rejected := by
  rw [crop_buffer, if_pos]
  rw [Nat.mod_eq_of_lt hx32, Nat.mod_eq_of_lt hy32]
  exact hout

/-- C5 witness: a 2-pixel-wide region on a 1-pixel-wide frame is rejected. -/
theorem C5_witness : crop_buffer [9, 9, 9, 9] 1 1 ⟨0, 0, 2, 1⟩ = .rejected :=
  C5_crop_out_of_bounds_rejected [9, 9, 9, 9] 1 1 ⟨0, 0, 2, 1⟩
    (by norm_num) (by norm_num) (by norm_num)

/-- C5 counterexample: with R.x = 2^32 - 1, R.width = 2 on a 4×1 frame the sum
R.x+R.width = 2^32+1 exceeds src_w = 4, so the claim demands "no result"; but
the `u32` sum wraps to 1, the bounds check passes, and the row slice panics
instead. -/
theorem C5_counterexample_wrap_panic :
    (2 ^ 32 - 1 : Nat) + 2 > 4 ∧
    crop_buffer [5, 5, 5, 5, 5, 5, 5, 5, 5, 5, 5, 5, 5, 5, 5, 5] 4 1
      ⟨2 ^ 32 - 1, 0, 2, 1⟩ = .panicked := by
  constructor
  · norm_num
  · decide

/-- C9 (amended): over `u32` inputs whose arithmetic does not overflow
(R.x+R.width < 2^32, R.y+R.height < 2^32, src_w·src_h·4 < 2^32) and a source
buffer of exactly src_w·src_h·4 bytes, `crop_buffer` terminates without
panicking: it returns either "no result" or a complete
R.width·R.height·4-byte buffer, every internal index staying within range. -/
theorem C9_crop_no_panic_without_overflow (src : List Nat) (src_w src_h : Nat) (r : Region)
    (hw32 : src_w < 2 ^ 32) (hh32 : src_h < 2 ^ 32)
    (hlen : src.length = src_w * src_h * 4)
    (hx32 : r.x + r.width < 2 ^ 32) (hy32 : r.y + r.height < 2 ^ 32)
    (hsz : src_w * src_h * 4 < 2 ^ 32) :
    crop_buffer src src_w src_h r = .rejected ∨
      ∃ dest, crop_buffer src src_w src_h r = .ok dest ∧
        dest.length = r.width * r.height * 4 := by
  by_cases hout : r.x + r.width > src_w ∨ r.y + r.height > src_h
  · left
    rw [crop_buffer, if_pos]
    rw [Nat.mod_eq_of_lt hx32, Nat.mod_eq_of_lt hy32]
    exact hout
  · right
    obtain ⟨dest, h1, h2, _⟩ :=
      C4_crop_in_bounds_correct src src_w src_h r hw32 hh32 hlen (by omega) (by omega) hsz
    exact ⟨dest, h1, h2⟩

/-- C9 witness: a concrete no-overflow crop that returns a full buffer. -/
theorem C9_witness :
    crop_buffer [9, 9, 9, 9] 1 1 ⟨0, 0, 1, 1⟩ = .rejected ∨
      ∃ dest, crop_buffer [9, 9, 9, 9] 1 1 ⟨0, 0, 1, 1⟩ = .ok dest ∧
        dest.length = 1 * 1 * 4 :=
  C9_crop_no_panic_without_overflow [9, 9, 9, 9] 1 1 ⟨0, 0, 1, 1⟩
    (by norm_num) (by norm_num) (by norm_num) (by norm_num) (by norm_num) (by norm_num)

/-- C9 counterexample: with arbitrary `u32` region fields (here
R.y = 2^32 - 1, R.height = 2 on a 1×4 frame of exactly src_w·src_h·4 = 16
bytes) the wrapped bounds check passes and the wrapped row offset makes the
slice panic: crop_buffer is not panic-free over the full `u32` domain. -/
theorem C9_counterexample_panic :
    crop_buffer [5, 5, 5, 5, 5, 5, 5, 5, 5, 5, 5, 5, 5, 5, 5, 5] 1 4
      ⟨0, 2 ^ 32 - 1, 1, 2⟩ = .panicked := by
  decide

/-! ### Lemmas about the preprocessor -/

/-- Pass 2 leaves the buffer length unchanged. -/
theorem mapPixels_length (f : Nat → Nat) : ∀ l : List Nat, (mapPixels f l).length = l.length
  | b :: g :: r :: a :: rest => by
    simp [mapPixels, mapPixels_length f rest]
  | [] => rfl
  | [_] => rfl
  | [_, _] => rfl
  | [_, _, _] => rfl

/-- There is one luminance per complete 4-byte chunk (`total_pixels`). -/
theorem grayList_length : ∀ l : List Nat, (grayList l).length = l.length / 4
  | b :: g :: r :: a :: rest => by
    simp only [grayList, List.length_cons, grayList_length rest]
    omega
  | [] => rfl
  | [_] => by simp [grayList]
  | [_, _] => by simp [grayList]
  | [_, _, _] => by simp [grayList]

/-- The luminances of a rewritten buffer: each chunk carries `f` of its old
luminance in all three colour channels. -/
theorem grayList_mapPixels (f : Nat → Nat) : ∀ l : List Nat,
    grayList (mapPixels f l) = (grayList l).map (fun g => gray (f g) (f g) (f g))
  | b :: g :: r :: a :: rest => by
    simp [mapPixels, grayList, grayList_mapPixels f rest]
  | [] => rfl
  | [_] => rfl
  | [_, _] => rfl
  | [_, _, _] => rfl

/-- Rewriting twice is rewriting once, whenever the second function restores
each written value. -/
theorem mapPixels_mapPixels (f f2 : Nat → Nat)
    (h : ∀ g, f2 (gray (f g) (f g) (f g)) = f g) :
    ∀ l : List Nat, mapPixels f2 (mapPixels f l) = mapPixels f l
  | b :: g :: r :: a :: rest => by
    simp [mapPixels, h, mapPixels_mapPixels f f2 h rest]
  | [] => rfl
  | [_] => rfl
  | [_, _] => rfl
  | [_, _, _] => rfl

theorem gray_zero : gray 0 0 0 = 0 := rfl

theorem gray_white : gray 255 255 255 = 255 := rfl

/-- A binarized value is restored by the luminance computation. -/
theorem gray_strictVal (thr g : Nat) :
    gray (strictVal thr g) (strictVal thr g) (strictVal thr g) = strictVal thr g := by
  by_cases hg : thr ≤ g
  · simp [strictVal, hg, gray_white]
  · simp [strictVal, hg, gray_zero]

/-- The mode scan ignores buckets with zero count. -/
theorem foldl_modeStep_const (gs : List Nat) :
    ∀ (l : List Nat) (p : Nat × Nat), (∀ i ∈ l, gs.count i = 0) →
      l.foldl (modeStep gs) p = p
  | [], _, _ => rfl
  | i :: t, p, h => by
    have hi : gs.count i = 0 := h i (List.mem_cons_self i t)
    have hstep : modeStep gs p i = p := by
      simp [modeStep, hi]
    rw [List.foldl_cons, hstep]
    exact foldl_modeStep_const gs t p (fun j hj => h j (List.mem_cons_of_mem i hj))

/-- Histogram mode of a 0/255-valued list with a strict white majority. -/
theorem modeOf_binary (gs : List Nat) (hmid : ∀ i, 0 < i → i < 255 → gs.count i = 0)
    (hgt : gs.count 0 < gs.count 255) : modeOf gs = 255 := by
  have h0 : modeStep gs (0, 0) 0 = (0, gs.count 0) := by
    by_cases hc : gs.count 0 > 0
    · simp [modeStep, hc]
    · have : gs.count 0 = 0 := by omega
      simp [modeStep, this]
  have hinner : List.foldl (modeStep gs) (0, 0) (List.range 255) = (0, gs.count 0) := by
    rw [List.range_succ_eq_map 254, List.foldl_cons, h0,
      foldl_modeStep_const gs _ _ (fun i hi => by
        simp only [List.mem_map, List.mem_range] at hi
        obtain ⟨k, hk, rfl⟩ := hi
        exact hmid (k + 1) (Nat.succ_pos k) (by omega))]
  rw [modeOf, List.range_succ, List.foldl_append, hinner]
  simp [modeStep, hgt]

/-- The running maximum dominates the start value and every element. -/
theorem le_foldl_max (v : Nat) : ∀ (gs : List Nat) (m : Nat), v ∈ gs ∨ v ≤ m →
    v ≤ gs.foldl (fun m g => if g > m then g else m) m
  | [], m, h => by
    rcases h with h | h
    · exact absurd h (List.not_mem_nil v)
    · exact h
  | g :: t, m, h => by
    rw [List.foldl_cons]
    have hup : m ≤ (if g > m then g else m) ∧ g ≤ (if g > m then g else m) := by
      by_cases hgm : g > m <;> simp [hgm] <;> omega
    rcases h with h | h
    · rcases List.mem_cons.mp h with rfl | hmem
      · exact le_foldl_max v t _ (Or.inr hup.2)
      · exact le_foldl_max v t _ (Or.inl hmem)
    · exact le_foldl_max v t _ (Or.inr (le_trans h hup.1))

/-- The running maximum never exceeds a bound satisfied by start and elements. -/
theorem foldl_max_le (B : Nat) : ∀ (gs : List Nat) (m : Nat), m ≤ B →
    (∀ v ∈ gs, v ≤ B) → gs.foldl (fun m g => if g > m then g else m) m ≤ B
  | [], _, hm, _ => hm
  | g :: t, m, hm, h => by
    rw [List.foldl_cons]
    have hg : g ≤ B := h g (List.mem_cons_self g t)
    have : (if g > m then g else m) ≤ B := by
      by_cases hgm : g > m <;> simp [hgm] <;> omega
    exact foldl_max_le B t _ this (fun v hv => h v (List.mem_cons_of_mem g hv))

/-- `max_val` of a list that contains 255 and nothing larger. -/
theorem maxOf_eq_255 (gs : List Nat) (hmem : 255 ∈ gs) (hle : ∀ v ∈ gs, v ≤ 255) :
    maxOf gs = 255 :=
  Nat.le_antisymm (foldl_max_le 255 gs 0 (by omega) hle) (le_foldl_max 255 gs 0 (Or.inl hmem))

/-- C3 (amended): if the first application of the preprocessor takes the
strict-binarization branch and white pixels strictly outnumber black pixels in
the binarized output (2·bright_count > total), then applying the preprocessor
a second time reproduces the same image.  (When black pixels dominate, the
second application instead takes the inverting auto-levels branch and swaps
the two values, so the unrestricted claim fails.) -/
theorem C3_strict_idempotent_white_majority (data : List Nat)
    (h : useHigh data = true)
    (hw : (grayList data).length <
      2 * brightCount (grayList data) (thrOf (grayList data))) :
    preprocess (preprocess data) = preprocess data := by
  have hpre : preprocess data = mapPixels (strictVal (thrOf (grayList data))) data := by
    rw [preprocess, if_pos h]
  have hmap : grayList (preprocess data) =
      (grayList data).map (strictVal (thrOf (grayList data))) := by
    rw [hpre, grayList_mapPixels]
    exact List.map_congr_left (fun g _ => gray_strictVal _ g)
  have hbrfl : brightCount (grayList data) (thrOf (grayList data)) =
      (grayList data).countP (fun g => decide (thrOf (grayList data) ≤ g)) := rfl
  have hc255 : ((grayList data).map (strictVal (thrOf (grayList data)))).count 255 =
      brightCount (grayList data) (thrOf (grayList data)) := by
    rw [List.count_eq_countP, List.countP_map, hbrfl]
    refine List.countP_congr (fun g _ => ?_)
    by_cases hg : thrOf (grayList data) ≤ g <;> simp [strictVal, hg, Function.comp]
  have hsplit := List.length_eq_countP_add_countP
    (fun g => decide (thrOf (grayList data) ≤ g)) (grayList data)
  have hc0 : ((grayList data).map (strictVal (thrOf (grayList data)))).count 0 =
      (grayList data).length - brightCount (grayList data) (thrOf (grayList data)) := by
    rw [List.count_eq_countP, List.countP_map]
    have he : (grayList data).countP ((· == (0 : Nat)) ∘ strictVal (thrOf (grayList data))) =
        (grayList data).countP
          (fun a => decide ¬(decide (thrOf (grayList data) ≤ a) = true)) := by
      refine List.countP_congr (fun g _ => ?_)
      by_cases hg : thrOf (grayList data) ≤ g <;> simp [strictVal, hg, Function.comp]
    rw [he, hbrfl]
    omega
  have hmid : ∀ i, 0 < i → i < 255 →
      ((grayList data).map (strictVal (thrOf (grayList data)))).count i = 0 := by
    intro i h0i hi255
    rw [List.count_eq_countP, List.countP_map, List.countP_eq_zero]
    intro g _
    by_cases hg : thrOf (grayList data) ≤ g <;>
      simp [strictVal, hg, Function.comp] <;> omega
  have hgt : ((grayList data).map (strictVal (thrOf (grayList data)))).count 0 <
      ((grayList data).map (strictVal (thrOf (grayList data)))).count 255 := by
    rw [hc0, hc255]
    omega
  have hmode2 : modeOf ((grayList data).map (strictVal (thrOf (grayList data)))) = 255 :=
    modeOf_binary _ hmid hgt
  have hmem255 : (255 : Nat) ∈ (grayList data).map (strictVal (thrOf (grayList data))) := by
    refine List.count_pos_iff.mp ?_
    rw [hc255]
    omega
  have hle255 : ∀ v ∈ (grayList data).map (strictVal (thrOf (grayList data))), v ≤ 255 := by
    intro v hv
    obtain ⟨g, _, rfl⟩ := List.mem_map.mp hv
    by_cases hg : thrOf (grayList data) ≤ g <;> simp [strictVal, hg]
  have hmax2 : maxOf ((grayList data).map (strictVal (thrOf (grayList data)))) = 255 :=
    maxOf_eq_255 _ hmem255 hle255
  have hthr2 : thrOf ((grayList data).map (strictVal (thrOf (grayList data)))) = 255 := by
    rw [thrOf, hmode2]
    decide
  have hb2 : brightCount ((grayList data).map (strictVal (thrOf (grayList data)))) 255 =
      brightCount (grayList data) (thrOf (grayList data)) := by
    rw [brightCount, List.countP_map, hbrfl]
    refine List.countP_congr (fun g _ => ?_)
    by_cases hg : thrOf (grayList data) ≤ g <;> simp [strictVal, hg, Function.comp]
  have hlenpre : (preprocess data).length = data.length := by
    rw [hpre, mapPixels_length]
  have huse2 : useHigh (preprocess data) = true := by
    simp only [useHigh, hmap, hmode2, hmax2, hthr2, hb2, hlenpre,
      Bool.and_eq_true, decide_eq_true_iff]
    refine ⟨⟨by norm_num, by norm_num⟩, ?_⟩
    have hgl := grayList_length data
    omega
  have houter : preprocess (preprocess data) =
      mapPixels (strictVal 255) (preprocess data) := by
    rw [preprocess, if_pos huse2, hmap, hthr2]
  rw [houter, hpre]
  exact mapPixels_mapPixels (strictVal (thrOf (grayList data))) (strictVal 255)
    (fun g => by
      rw [gray_strictVal]
      by_cases hg : thrOf (grayList data) ≤ g <;> simp [strictVal, hg]) data

/-- C3 witness: both hypotheses hold on `whiteMajorityBuf` and re-application
reproduces the binarized image. -/
theorem C3_witness : preprocess (preprocess whiteMajorityBuf) = preprocess whiteMajorityBuf :=
  C3_strict_idempotent_white_majority whiteMajorityBuf (by decide) (by decide)

/-- C3 counterexample: on `blackMajorityBuf` the first application binarizes
(strict branch taken), yet the second application takes the inverting
auto-levels branch (output mode 0 < 100) and swaps black and white, so
`preprocess (preprocess B) ≠ preprocess B`. -/
theorem C3_counterexample_black_majority :
    useHigh blackMajorityBuf = true ∧
      preprocess (preprocess blackMajorityBuf) ≠ preprocess blackMajorityBuf := by
  constructor
  · decide
  · have h1 : preprocess blackMajorityBuf =
        [0, 0, 0, 7] ++ [0, 0, 0, 7] ++ [0, 0, 0, 7] ++ [255, 255, 255, 7] := by decide
    rw [h1]
    decide

/-- C6 (amended): the preprocessor selects strict binarization exactly when
the histogram mode exceeds 100, the maximum observed luminance exceeds 240,
and the count of pixels with luminance at least the saturating sum
min(mode+20, 255) exceeds 0.5% of the total pixel count; in that case every
pixel with luminance at least min(mode+20, 255) is written as 255 in all
three colour channels and every other pixel as 0.  (The unsaturated bound
mode+20 of the original claim is wrong when mode > 235.) -/
theorem C6_strict_selection_saturated (data : List Nat) :
    (useHigh data = true ↔
      100 < modeOf (grayList data) ∧ 240 < maxOf (grayList data) ∧
        ((data.length / 4 : Nat) : ℚ) / 200 <
          (brightCount (grayList data) (min (modeOf (grayList data) + 20) 255) : ℚ)) ∧
    (useHigh data = true →
      preprocess data =
        mapPixels (strictVal (min (modeOf (grayList data) + 20) 255)) data) := by
  constructor
  · simp only [useHigh, thrOf, Bool.and_eq_true, decide_eq_true_iff]
    constructor
    · rintro ⟨⟨h1, h2⟩, h3⟩
      refine ⟨h1, h2, ?_⟩
      rw [div_lt_iff₀ (by norm_num : (0 : ℚ) < 200)]
      exact_mod_cast (Nat.div_lt_iff_lt_mul (by norm_num : 0 < 200)).mp h3
    · rintro ⟨h1, h2, h3⟩
      refine ⟨⟨h1, h2⟩, ?_⟩
      rw [div_lt_iff₀ (by norm_num : (0 : ℚ) < 200)] at h3
      exact (Nat.div_lt_iff_lt_mul (by norm_num : 0 < 200)).mpr (by exact_mod_cast h3)
  · intro h
    rw [preprocess, if_pos h, thrOf]

/-- C6 counterexample: on `nearWhiteBuf` the code takes the strict branch
(threshold saturates at 255 and one pixel qualifies), but the claim's
condition — pixels with luminance ≥ mode+20 = 270 exceeding 0.5% of the
total — counts no pixel at all, so the claimed "exactly when" fails. -/
theorem C6_counterexample_saturation :
    useHigh nearWhiteBuf = true ∧
    modeOf (grayList nearWhiteBuf) = 250 ∧
    ¬ (((nearWhiteBuf.length / 4 : Nat) : ℚ) / 200 <
        (brightCount (grayList nearWhiteBuf) (modeOf (grayList nearWhiteBuf) + 20) : ℚ)) := by
  refine ⟨by decide, by decide, ?_⟩
  have hb : brightCount (grayList nearWhiteBuf) (modeOf (grayList nearWhiteBuf) + 20) = 0 := by
    decide
  have hl : nearWhiteBuf.length / 4 = 4 := by decide
  rw [hb, hl]
  norm_num

/-! ### Rule-matching claims -/

/-- C1 (amended): the rule-matching step of one analysis pass fires one action
for every (rule, token) pair that passes the attribute, keyword and price
gates — rules in configuration order, tokens in list order.  The loop contains
no break, so it does not stop after a fire and a pass can produce several
actions. -/
theorem C1_fired_events_characterization (rules : List Rule) (findings : List OcrData)
    (e : ActionEvent) :
    e ∈ firedEvents rules findings ↔
      ∃ rule ∈ rules, ∃ item ∈ findings, ∃ price,
        pairPrice rule (attrLowerOf findings) item = some price ∧
        e = eventOf rule findings item price := by
  simp only [firedEvents, List.mem_flatMap, List.mem_filterMap, Option.map_eq_some']
  constructor
  · rintro ⟨rule, hrule, item, hitem, price, hp, rfl⟩
    exact ⟨rule, hrule, item, hitem, price, hp, rfl⟩
  · rintro ⟨rule, hrule, item, hitem, price, hp, rfl⟩
    exact ⟨rule, hrule, item, hitem, price, hp, rfl⟩

/-- C1 counterexample: with one rule and two tokens that both pass every gate
the pass fires twice — more than the claimed "zero or one" action, and the
second (rule, token) pair is still evaluated after the first fire. -/
theorem C1_counterexample_two_fires :
    (firedEvents [goldRule] goldTokens).length = 2 ∧
    firedEvents [goldRule] goldTokens =
      [{ rule_id := "r1", name := "Gold Ring", attr := "Gold Ring", price := 0 },
       { rule_id := "r1", name := "Gold Axe", attr := "Gold Ring", price := 0 }] := by
  constructor
  · decide
  · decide

/-- C2 (amended): a single-word trigger (no space) matches a token exactly
when some word of the token's lower-cased text, split on non-alphanumeric
characters, equals the lower-cased trigger or has normalized Levenshtein
similarity strictly above 0.85.  In particular trigger "sword" matches
neither token word "sowrd" (similarity 0.6 ≤ 0.85) nor "axe". -/
theorem C2_single_word_fuzzy_match :
    (∀ (trigger : String) (textLower : List Char),
      (lowerData trigger).contains ' ' = false →
      (keyword_match [trigger] textLower = true ↔
        ∃ w ∈ splitWords textLower,
          w = lowerData trigger ∨
            normalized_levenshtein w (lowerData trigger) > 0.85)) ∧
    keyword_match ["sword"] "sowrd".data = false ∧
    keyword_match ["sword"] "axe".data = false := by
  refine ⟨?_, by decide, by decide⟩
  intro trigger textLower hsp
  have hsp' : ¬ (' ' ∈ lowerData trigger) := by simpa using hsp
  simp [keyword_match, hsp']

/-- C2 counterexample: the normalized Levenshtein similarity of "sowrd" and
"sword" is 0.6, not above 0.85, so the trigger "sword" does not match the
token word "sowrd" — the claimed fuzzy match fails. -/
theorem C2_counterexample_sowrd :
    normalized_levenshtein "sowrd".data "sword".data = 3 / 5 ∧
    ¬ normalized_levenshtein "sowrd".data "sword".data > 0.85 ∧
    keyword_match ["sword"] "sowrd".data = false := by
  refine ⟨by decide, by decide, by decide⟩

/-- C7: the price gate passes with price 0 when no bound is declared;
otherwise it scans the token's raw text for digit/comma/period runs, strips
commas, parses them, and passes exactly when some parsed value lies within
the declared bounds, recording the first such value; token "$1,250" passes
[1000, 1500] with price 1250 and is rejected for min = 2000. -/
theorem C7_price_gate :
    (∀ text : List Char, priceGate text none none = some 0) ∧
    (∀ (text : List Char) (minV maxV : Option ℚ), ¬(minV = none ∧ maxV = none) →
      priceGate text minV maxV =
        ((numRuns text).filterMap (fun run => parseDecimal (stripCommas run))).find?
          (fun v => minV.all (fun m => decide (m ≤ v)) &&
            maxV.all (fun m => decide (v ≤ m))) ∧
      ((priceGate text minV maxV).isSome ↔
        ∃ v ∈ (numRuns text).filterMap (fun run => parseDecimal (stripCommas run)),
          (minV.all (fun m => decide (m ≤ v)) &&
            maxV.all (fun m => decide (v ≤ m))) = true)) ∧
    priceGate "$1,250".data (some 1000) (some 1500) = some 1250 ∧
    priceGate "$1,250".data (some 2000) none = none := by
  refine ⟨?_, ?_, by decide, by decide⟩
  · intro text
    simp [priceGate]
  · intro text minV maxV hb
    have hcond : (minV.isNone && maxV.isNone) = false := by
      rcases minV with _ | m <;> rcases maxV with _ | m' <;> simp_all
    have heq : priceGate text minV maxV =
        ((numRuns text).filterMap (fun run => parseDecimal (stripCommas run))).find?
          (fun v => minV.all (fun m => decide (m ≤ v)) &&
            maxV.all (fun m => decide (v ≤ m))) := by
      simp [priceGate, hcond]
    refine ⟨heq, ?_⟩
    rw [heq]
    exact List.find?_isSome

/-- C8: when a rule declares a required attribute substring, a (rule, token)
pair can fire only if that substring occurs case-insensitively in the text of
the topmost token (smallest bounding-box y); with no token at all the pair is
rejected; and on tokens {"Excalibur Sword", y=10}, {"Fire", y=2} a rule with
attribute "fire", trigger "excalibur" and no bounds fires once with
attribute "Fire" and matched text "Excalibur Sword". -/
theorem C8_attribute_gate :
    (∀ (rule : Rule) (findings : List OcrData) (item : OcrData) (req : String) (price : ℚ),
      rule.target_attribute = some req →
      pairPrice rule (attrLowerOf findings) item = some price →
      ∃ top, topmost findings = some top ∧
        hasSub (lowerData req) (lowerData top.text) = true) ∧
    (∀ (rule : Rule) (item : OcrData) (req : String),
      rule.target_attribute = some req →
      pairPrice rule (attrLowerOf []) item = none) ∧
    firedEvents
      [{ id := "r8", trigger_text := ["excalibur"], max_value := none, min_value := none,
         target_attribute := some "fire", cooldown := 0 }]
      [{ text := "Excalibur Sword", x := 0, y := 10, w := 1, h := 1 },
       { text := "Fire", x := 0, y := 2, w := 1, h := 1 }] =
      [{ rule_id := "r8", name := "Excalibur Sword", attr := "Fire", price := 0 }] := by
  refine ⟨?_, ?_, by decide⟩
  · intro rule findings item req price hreq hp
    rw [pairPrice, hreq] at hp
    cases htop : topmost findings with
    | none =>
      rw [attrLowerOf, htop] at hp
      simp at hp
    | some top =>
      rw [attrLowerOf, htop] at hp
      by_cases hsub : hasSub (lowerData req) (lowerData top.text) = true
      · exact ⟨top, rfl, hsub⟩
      · simp [hsub] at hp
  · intro rule item req hreq
    simp [pairPrice, attrLowerOf, topmost, hreq]

/-! ### parse_key claim -/

/-- A successful lookup means the key occurs in the table. -/
theorem lookup_some_mem_keys : ∀ (l : List (String × Nat)) (k : String) (v : Nat),
    l.lookup k = some v → k ∈ l.map Prod.fst
  | [], _, _, h => by simp [List.lookup] at h
  | (a, b) :: t, k, v, h => by
    rw [List.lookup] at h
    cases hk : (k == a) with
    | true =>
      have hkeq : k = a := by simpa using hk
      simp [hkeq]
    | false =>
      rw [hk] at h
      simp only [List.map_cons]
      exact List.mem_cons_of_mem _ (lookup_some_mem_keys t k v h)

/-- C10: `parse_key` is total and defaults silently: any key name whose
lower-casing is not one of the recognized names (a–z, 0–9, f1–f12, space,
enter, tab, esc, the keys of `keyTable`) parses to `VK_E`, so a misconfigured
`global_action_key` makes the triggered action press the 'e' key. -/
theorem C10_parse_key_default (k : String)
    (h : String.mk (lowerData k) ∉ keyTable.map Prod.fst) :
    parse_key k = VK_E := by
  rw [parse_key]
  cases hl : keyTable.lookup (String.mk (lowerData k)) with
  | none => rfl
  | some v => exact absurd (lookup_some_mem_keys keyTable _ v hl) h

/-- C10 witness: the unrecognized key name "unknown" parses to `VK_E` = 69. -/
theorem C10_witness : parse_key "unknown" = VK_E :=
  C10_parse_key_default "unknown" (by decide)

end PyAuto
